import Mathlib

/-!
Verification of the definition-extraction and source-rewrite engine of the
`editor-nuxt` repository (`src/build.config.ts`, `src/index.ts`,
`src/runtime/composables/defineParagraph.ts`).

The relevant parts of the TypeScript source are shallowly embedded:

* ESTree expression nodes (the subset the code inspects) become the
  inductive types `JSValue`, `PropKey`, `Expr`, `OProp`.
* Plain JavaScript data values produced by `estreeToObject` become
  `DataValue`; JavaScript objects are modelled as association lists in
  property-insertion order (`insertEntry` / `fromEntries` mirror
  `obj[k] = v` and `Object.fromEntries`).
* The unplugin `transform` hook becomes `transform`, taking the parse
  result (the list of `CallExpression` nodes visited by `walk`, each with
  the byte range of its first argument) as an explicit argument, since the
  host parser (`this.parse`) is external to the repository.
  `MagicString#overwrite` becomes `applyEditsFrom`.
-/

/-- The value carried by an ESTree `Literal` node (string, number, boolean
or `null` literals). Numbers are modelled as integers; the claims only
involve integral literals. -/
inductive JSValue where
  | str (s : String)
  | num (n : Int)
  | bool (b : Bool)
  | null
deriving DecidableEq

/-- The `key` node of an ESTree object-literal `Property`.
`estreeToObject` tests `'name' in prop.key`, which holds exactly for
`Identifier` keys (also when the property is computed); a `Literal` key
(string or number literal) or any other computed key expression has no
`name` field. -/
inductive PropKey where
  | ident (name : String)
  | litKey (v : JSValue)
  | exprKey
deriving DecidableEq

mutual
/-- ESTree expressions, restricted to the node kinds distinguished by
`estreeToObject` and `transform` in `src/build.config.ts`: `Literal`,
`ObjectExpression`, `ArrayExpression`, `Identifier`, `CallExpression`,
`TemplateLiteral` (with interpolation) and a catch-all for every other
expression kind, which the code treats uniformly (it only ever matches on
`Literal` and `ObjectExpression`). -/
inductive Expr where
  | lit (v : JSValue)
  | objLit (props : List OProp)
  | arr (elems : List Expr)
  | identE (name : String)
  | callE (args : List Expr)
  | template
  | otherExpr

/-- An element of an `ObjectExpression`'s `properties` array: either a
`Property` node (key, `computed` flag, value) or a `SpreadElement`
(whose `type` is not `'Property'`). -/
inductive OProp where
  | property (key : PropKey) (computed : Bool) (value : Expr)
  | spread (e : Expr)
end

/-- A plain JavaScript data value, as produced by `estreeToObject`:
a primitive literal value or an object, modelled as an association list
in property-insertion order. -/
inductive DataValue where
  | lit (v : JSValue)
  | obj (entries : List (String × DataValue))

/-- Property lookup on a JavaScript object modelled as an association
list: the first entry with the given key (keys are unique in every list
built by `fromEntries`/`insertEntry`). `none` models `undefined`. -/
def lookupEntry : List (String × DataValue) → String → Option DataValue
  | [], _ => none
  | (k2, v) :: rest, k => if k2 = k then some v else lookupEntry rest k

/-- The JavaScript assignment `obj[k] = v`: an existing key keeps its
position and gets the new value, a new key is appended. -/
def insertEntry : List (String × DataValue) → String → DataValue → List (String × DataValue)
  | [], k, v => [(k, v)]
  | (k2, v2) :: rest, k, v =>
      if k2 = k then (k2, v) :: rest else (k2, v2) :: insertEntry rest k v

/-- Model of `Object.fromEntries`: build an object by assigning each pair in
order (later pairs with the same key overwrite earlier values, which keep
their position). -/
def fromEntries (l : List (String × DataValue)) : List (String × DataValue) :=
  l.foldl (fun m p => insertEntry m p.1 p.2) []

/-- JavaScript truthiness of a `DataValue` (objects are always truthy,
`null`, `false`, `0` and `""` are falsy). -/
def truthy : DataValue → Bool
  | .lit .null => false
  | .lit (.bool b) => b
  | .lit (.num n) => n != 0
  | .lit (.str s) => s != ""
  | .obj _ => true

/-- Model of `Object.entries(v)`: the own enumerable entries of `v`. For an object
this is its entry list; for a string primitive, index-keyed single
character entries; numbers and booleans have none. (`Object.entries` on
`null` throws in JavaScript; it is only reached behind a truthiness
guard, so that case is unreachable here.) -/
def entriesOf : DataValue → List (String × DataValue)
  | .obj l => l
  | .lit (.str s) =>
      (List.range s.length).zip (s.data.map (fun c => DataValue.lit (.str (String.singleton c))))
        |>.map (fun p => (toString p.1, p.2))
  | _ => []

/-- The member access `v.k` for a fixed member name `k` such as
`"default"`, `"options"` or `"globalOptions"`: present only on objects.
(String primitives own no property with those names; member access on
`null` throws in JavaScript and is not reached by the modelled flows.) -/
def getMember : DataValue → String → Option DataValue
  | .obj l, k => lookupEntry l k
  | _, _ => none

mutual
/-- The body of `estreeToObject` (src/build.config.ts line 58-73):
`expression.properties.map(...).filter(falsy)`. Each `Property` whose key
has a `name` field and whose value is a `Literal` or an `ObjectExpression`
yields a `[key.name, value]` entry; every other element maps to `null`
and is removed by `.filter(falsy)`. -/
def propEntries : List OProp → List (String × DataValue)
  | [] => []
  | p :: ps =>
      match propEntry p with
      | some e => e :: propEntries ps
      | none => propEntries ps

/-- The per-property case analysis inside `estreeToObject`:
`prop.type === 'Property'`, then `'name' in prop.key`, then a match on
`prop.value.type` (`Literal` → the literal value, `ObjectExpression` →
recursive conversion, anything else → `null`, i.e. dropped). -/
def propEntry : OProp → Option (String × DataValue)
  | .property (.ident n) _ (.lit v) => some (n, .lit v)
  | .property (.ident n) _ (.objLit qs) => some (n, .obj (fromEntries (propEntries qs)))
  | _ => none
end

/-- Function `estreeToObject` (src/build.config.ts line 55-74): convert an
`ObjectExpression`'s property list to a plain object via
`Object.fromEntries`. -/
def estreeToObject (props : List OProp) : List (String × DataValue) :=
  fromEntries (propEntries props)

/-- The result type of `buildRuntimeDefinition`
(`RuntimeParagraphDefintionInput` in src/build.config.ts): an object with
optional `options` and `globalOptions` members; `none` models an absent
member (never assigned). -/
structure RuntimeDefinition where
  options : Option (List (String × DataValue))
  globalOptions : Option DataValue

/-- The `Object.entries(definition.options).forEach` loop of
`buildRuntimeDefinition` (src/build.config.ts line 89-97): for every
entry whose `.default` member is truthy, assign
`runtimeDefinition.options[optionKey] = { default: optionDefinition.default }`. -/
def buildOptionEntries (entries : List (String × DataValue)) : List (String × DataValue) :=
  entries.foldl
    (fun acc p =>
      match getMember p.2 "default" with
      | some d => if truthy d then insertEntry acc p.1 (.obj [("default", d)]) else acc
      | none => acc)
    []

/-- Function `buildRuntimeDefinition` (src/build.config.ts line 82-104): keep only
the truthy-`default` option entries, reduced to `{ default }`, and copy
`definition.globalOptions` when truthy; both guards are JavaScript
truthiness tests (`if (definition.options)`, `if (optionDefinition.default)`,
`if (definition.globalOptions)`). -/
def buildRuntimeDefinition (definition : List (String × DataValue)) : RuntimeDefinition :=
  { options :=
      match lookupEntry definition "options" with
      | some v => if truthy v then some (buildOptionEntries (entriesOf v)) else none
      | none => none
    globalOptions :=
      match lookupEntry definition "globalOptions" with
      | some g => if truthy g then some g else none
      | none => none }

/-- JSON string escaping for the characters that `JSON.stringify` escapes
and that can occur in the modelled sources (quote and backslash; control
characters do not occur in the claims' inputs). -/
def escapeJsonChar (c : Char) : List Char :=
  if c = '"' then ['\\', '"'] else if c = '\\' then ['\\', '\\'] else [c]

/-- Model of `JSON.stringify` of a string value. -/
def jsonOfStringLit (s : String) : String :=
  String.mk ('"' :: (s.data.foldr (fun c acc => escapeJsonChar c ++ acc) ['"']))

mutual
/-- Model of `JSON.stringify` of a `DataValue` (the values reaching it here are
primitives and plain objects; member order is insertion order). -/
def jsonOfDataValue : DataValue → String
  | .lit (.str s) => jsonOfStringLit s
  | .lit (.num n) => toString n
  | .lit (.bool true) => "true"
  | .lit (.bool false) => "false"
  | .lit .null => "null"
  | .obj entries => "\x7b" ++ jsonOfEntries entries ++ "\x7d"

/-- The comma-separated members of a stringified object. -/
def jsonOfEntries : List (String × DataValue) → String
  | [] => ""
  | [(k, v)] => jsonOfStringLit k ++ ":" ++ jsonOfDataValue v
  | (k, v) :: rest => jsonOfStringLit k ++ ":" ++ jsonOfDataValue v ++ "," ++ jsonOfEntries rest
end

/-- Model of `JSON.stringify(runtimeDefinition)`: the two members appear in
assignment order (`options` first), absent members are omitted. -/
def jsonOfRuntimeDefinition (rd : RuntimeDefinition) : String :=
  match rd.options, rd.globalOptions with
  | some o, some g =>
      "\x7b\"options\":" ++ jsonOfDataValue (.obj o) ++ ",\"globalOptions\":" ++
        jsonOfDataValue g ++ "\x7d"
  | some o, none => "\x7b\"options\":" ++ jsonOfDataValue (.obj o) ++ "\x7d"
  | none, some g => "\x7b\"globalOptions\":" ++ jsonOfDataValue g ++ "\x7d"
  | none, none => "\x7b\x7d"

/-- One `MagicString#overwrite(start, stop, repl)` edit: replace the byte
range `[start, stop)` of the original source with `repl`. -/
structure Edit where
  start : Nat
  stop : Nat
  repl : List Char

/-- Apply a position-sorted list of non-overlapping edits to the source
characters. `off` is the absolute position of the first character of
`cs` in the original source (the edits carry absolute positions, as
`MagicString#overwrite` does). -/
def applyEditsFrom : Nat → List Char → List Edit → List Char
  | _, cs, [] => cs
  | off, cs, e :: rest =>
      cs.take (e.start - off) ++ e.repl ++
        applyEditsFrom e.stop (cs.drop (e.stop - off)) rest

/-- Well-formedness of an edit list relative to offset `off` and total
length `len`: in-bounds, non-overlapping and sorted by position — the
shape produced by walking an AST in source order. -/
def editsWF : Nat → Nat → List Edit → Prop
  | _, _, [] => True
  | off, len, e :: rest =>
      off ≤ e.start ∧ e.start ≤ e.stop ∧ e.stop ≤ len ∧ editsWF e.stop len rest

/-- The signed displacement that the edits strictly before position `p`
(those with `stop ≤ p`) cause to the positions at and after `p`. -/
def editShift : List Edit → Nat → Int
  | [], _ => 0
  | e :: rest, p =>
      (if e.stop ≤ p then (e.repl.length : Int) - ((e.stop : Int) - (e.start : Int)) else 0) +
        editShift rest p

/-- Model of `String.prototype.includes`: does `text` contain `pat` as a
contiguous substring? -/
def hasSubstring : List Char → List Char → Bool
  | [], pat => pat.isEmpty
  | c :: t, pat => pat.isPrefixOf (c :: t) || hasSubstring t pat

/-- The test of `fileRegex = /\.(vue)$/` (src/build.config.ts line 41). -/
def fileRegexTest (id : String) : Bool :=
  ".vue".data.isSuffixOf id.data

/-- The `callee` of a `CallExpression`: a plain `Identifier` or any other
expression (the walk skips the latter). -/
inductive Callee where
  | ident (name : String)
  | other

/-- A call argument as seen by the transform: its expression together
with the `start`/`end` byte positions the parser attached to the node
(`end` is called `stop` here, `end` being a Lean keyword). -/
structure ArgNode where
  expr : Expr
  start : Nat
  stop : Nat

/-- A `CallExpression` node encountered by the `walk` in `transform`,
in source (pre-)order. -/
structure CallNode where
  callee : Callee
  args : List ArgNode

/-- The body of the `enter` visitor in `transform`
(src/build.config.ts line 127-153) for one `CallExpression`: calls whose
callee is not the identifier `defineParagraph` produce nothing; for a
`defineParagraph` call, `node.arguments[0]` is read unconditionally — a
zero-argument call makes `arg.type` throw (modelled as `.error`) — and an
`ObjectExpression` argument produces the overwrite edit with the
serialized reduced definition. -/
def callEdit (c : CallNode) : Except Unit (Option Edit) :=
  match c.callee with
  | .other => .ok none
  | .ident name =>
      if name = "defineParagraph" then
        match c.args with
        | [] => .error ()
        | a :: _ =>
            match a.expr with
            | .objLit props =>
                .ok (some ⟨a.start, a.stop,
                  (jsonOfRuntimeDefinition (buildRuntimeDefinition (estreeToObject props))).data⟩)
            | _ => .ok none
      else .ok none

/-- The edits collected by the whole walk, in visit order. -/
def collectEdits : List CallNode → Except Unit (List Edit)
  | [] => .ok []
  | c :: rest =>
      match callEdit c with
      | .error e => .error e
      | .ok none => collectEdits rest
      | .ok (some ed) =>
          match collectEdits rest with
          | .error e => .error e
          | .ok es => .ok (ed :: es)

/-- The `transform` hook of `ParagraphsBuilderPlugin`
(src/build.config.ts line 111-168). `calls` is the list of
`CallExpression` nodes of `this.parse(source)` in walk order; parsing is
done by the host build tool and is therefore an input of the model. The
returned string is the resulting code: both the `return` of the original
source and the unplugin \"no transform\" return leave the file unchanged,
and when `s.hasChanged()` is false `s.toString()` equals the source, so a
single `String` result captures the output in every non-throwing case
(source maps are not modelled). -/
def transform (id source : String) (calls : List CallNode) : Except Unit String :=
  if fileRegexTest id = false then .ok source
  else if hasSubstring source.data "defineParagraph".data = false then .ok source
  else
    match collectEdits calls with
    | .error e => .error e
    | .ok edits => .ok (String.mk (applyEditsFrom 0 source.data edits))

/-- The first loop of `defineParagraph`
(src/runtime/composables/defineParagraph.ts line 93-98):
`for (const key in config.options)` over the config's option entries; an
entry contributes when its value is truthy and owns a `default` member
(`config.options[key] && 'default' in config.options[key]`), and then
`defaultOptions[key] = config.options[key].default` — note that presence,
not truthiness, of the default is tested here. A `for...in` over an
absent (`undefined`) `config.options` iterates nothing. (A truthy
non-object value would make the `in` operator throw in JavaScript; such
configs are outside the modelled flows.) -/
def localDefaultOptions (options : Option (List (String × DataValue))) :
    List (String × DataValue) :=
  (options.getD []).foldl
    (fun acc p =>
      if truthy p.2 then
        match getMember p.2 "default" with
        | some d => insertEntry acc p.1 d
        | none => acc
      else acc)
    []

/-- The second loop of `defineParagraph`
(src/runtime/composables/defineParagraph.ts line 102-109): when
`config.globalOptions` is present (an array is truthy even when empty),
`for (const key in config.globalOptions)` enumerates the own enumerable
keys of the array — the index strings `"0"`, `"1"`, ... — and for each,
`globalOptionsDefaults[key]` is looked up and, when defined, assigned as
`defaultOptions[key] = defaultValue`. -/
def globalMerged (dOpts : List (String × DataValue)) (globalOptions : Option (List String))
    (globalOptionsDefaults : List (String × DataValue)) : List (String × DataValue) :=
  match globalOptions with
  | none => dOpts
  | some gs =>
      (List.range gs.length).foldl
        (fun acc i =>
          match lookupEntry globalOptionsDefaults (toString i) with
          | some v => insertEntry acc (toString i) v
          | none => acc)
        dOpts

/-- The `defaultOptions` object of `defineParagraph` after both loops
(src/runtime/composables/defineParagraph.ts line 93-109); these are the
defaults spread into every computed `options` value the composable
returns. -/
def defineParagraphDefaultOptions (options : Option (List (String × DataValue)))
    (globalOptions : Option (List String))
    (globalOptionsDefaults : List (String × DataValue)) : List (String × DataValue) :=
  globalMerged (localDefaultOptions options) globalOptions globalOptionsDefaults

/-- Modelled from the spec: the helper `onlyUnique` is imported from
`runtime/components/Edit/helpers`, a file that is not part of the
provided sources; per the spec the resulting sets are "deduplicated and
order-stable (insertion order of first appearance)", so
`filter(onlyUnique)` keeps exactly the first occurrence of each element.
`seen` accumulates the elements already kept. -/
def dedupFirstGo (seen : List String) : List String → List String
  | [] => []
  | x :: xs => if x ∈ seen then dedupFirstGo seen xs else x :: dedupFirstGo (seen ++ [x]) xs

/-- Modelled from the spec: `array.filter(onlyUnique)`, keeping the first
occurrence of each element. -/
def dedupFirst (l : List String) : List String :=
  dedupFirstGo [] l

/-- Function `getChunkNames` (src/index.ts line 103-109): copy the
configured `chunkNames` (or `[]` when absent), append `"global"` if not
already included, deduplicate keeping first occurrences. -/
def getChunkNames (chunkNames : Option (List String)) : List String :=
  let cs := chunkNames.getD []
  dedupFirst (if "global" ∈ cs then cs else cs ++ ["global"])

/-- Function `getFieldListTypes` (src/index.ts line 111-117): same as
`getChunkNames` with `fieldListTypes` and `"default"`. -/
def getFieldListTypes (fieldListTypes : Option (List String)) : List String :=
  let ts := fieldListTypes.getD []
  dedupFirst (if "default" ∈ ts then ts else ts ++ ["default"])

/-- The chunk-manifest template filenames emitted by `setup`
(src/index.ts line 241-256): `getChunkNames().forEach` adds a template
`paragraphs-builder/chunk-<name>.ts` for every effective chunk name other
than `"global"`. -/
def emittedChunkTemplates (chunkNames : Option (List String)) : List String :=
  (getChunkNames chunkNames).foldl
    (fun acc n =>
      if n ≠ "global" then acc ++ ["paragraphs-builder/chunk-" ++ n ++ ".ts"] else acc)
    []

/-- Constant `POSSIBLE_EXTENSIONS` (src/index.ts line 47): the file
extensions accepted on the extraction side. -/
def POSSIBLE_EXTENSIONS : List String :=
  [".js", ".ts", ".vue", ".mjs"]

/-- Properties whose value is not a `Literal` or an `ObjectExpression`
(array literals, identifiers, calls, templates, anything else) and
`SpreadElement`s: exactly the elements `estreeToObject` maps to `null`
whatever their key is. -/
def unsupportedValue : OProp → Bool
  | .property _ _ (.lit _) => false
  | .property _ _ (.objLit _) => false
  | .property _ _ _ => true
  | .spread _ => true

/-- Does an object-literal element satisfy both `prop.type === 'Property'`
and `'name' in prop.key`? JSON output re-parses with string-literal keys
only, for which this is false. -/
def hasNameKey : OProp → Bool
  | .property (.ident _) _ _ => true
  | _ => false

/-- Is an expression an `ObjectExpression`? -/
def isObjLit : Expr → Bool
  | .objLit _ => true
  | _ => false

/-- The call has a first argument and it is not an `ObjectExpression`
(a zero-argument `defineParagraph` call would instead crash the
transform, see `callEdit`). -/
def firstArgNotObjLit (c : CallNode) : Prop :=
  match c.args with
  | [] => False
  | a :: _ => isObjLit a.expr = false

/-! Concrete fixtures. The `...Calls` lists give, for each fixture
source, the `CallExpression` nodes its parse contains, with the byte
ranges the parser attaches to the first argument; the harness's parser is
external to the repository, so these are written out by hand and can be
checked against the fixture strings directly. -/

/-- The argument text of the §8 rewrite example. -/
def c1ArgText : String :=
  "\x7b options: \x7b size: \x7b type: \"radios\", default: \"medium\" \x7d \x7d, globalOptions: [\"theme\"] \x7d"

/-- The §8 rewrite example source, a single `defineParagraph` call. -/
def c1Src : String := "defineParagraph(" ++ c1ArgText ++ ")"

/-- The properties of the §8 example's argument object. -/
def c1Props : List OProp :=
  [.property (.ident "options") false (.objLit
    [.property (.ident "size") false (.objLit
      [.property (.ident "type") false (.lit (.str "radios")),
       .property (.ident "default") false (.lit (.str "medium"))])]),
   .property (.ident "globalOptions") false (.arr [.lit (.str "theme")])]

/-- The AST of the §8 example's argument. -/
def c1Arg : Expr := .objLit c1Props

/-- The calls of `c1Src`: one `defineParagraph` call whose argument spans
bytes 16 to 16 + the argument text's length. -/
def c1Calls : List CallNode :=
  [⟨.ident "defineParagraph", [⟨c1Arg, 16, 16 + c1ArgText.length⟩]⟩]

/-- What the transform actually produces for `c1Src`: the `globalOptions`
array has been dropped. -/
def c1Out : String :=
  "defineParagraph(\x7b\"options\":\x7b\"size\":\x7b\"default\":\"medium\"\x7d\x7d\x7d)"

/-- The argument text of the idempotence fixture. -/
def c2ArgText : String := "\x7b options: \x7b size: \x7b default: \"medium\" \x7d \x7d \x7d"

/-- The idempotence fixture source. -/
def c2Src : String := "defineParagraph(" ++ c2ArgText ++ ")"

/-- The AST of `c2ArgText`. -/
def c2Arg : Expr :=
  .objLit
    [.property (.ident "options") false (.objLit
      [.property (.ident "size") false (.objLit
        [.property (.ident "default") false (.lit (.str "medium"))])])]

/-- The calls of `c2Src`. -/
def c2Calls1 : List CallNode :=
  [⟨.ident "defineParagraph", [⟨c2Arg, 16, 16 + c2ArgText.length⟩]⟩]

/-- The serialized reduced definition of the idempotence fixture. -/
def c2Json1 : String := "\x7b\"options\":\x7b\"size\":\x7b\"default\":\"medium\"\x7d\x7d\x7d"

/-- The transform's output for `c2Src`. -/
def c2Out1 : String := "defineParagraph(" ++ c2Json1 ++ ")"

/-- The AST of the argument of `c2Out1`: JSON re-parses as an
`ObjectExpression` whose keys are all string literals. -/
def c2Arg2 : Expr :=
  .objLit
    [.property (.litKey (.str "options")) false (.objLit
      [.property (.litKey (.str "size")) false (.objLit
        [.property (.litKey (.str "default")) false (.lit (.str "medium"))])])]

/-- The calls of `c2Out1`. -/
def c2Calls2 : List CallNode :=
  [⟨.ident "defineParagraph", [⟨c2Arg2, 16, 16 + c2Json1.length⟩]⟩]

/-- The transform's output for `c2Out1`: the argument has been rewritten
to the empty object literal. -/
def c2Out2 : String := "defineParagraph(\x7b\x7d)"

/-- The calls of `c2Out2`: the argument `\x7b\x7d` spans bytes 16 to 18. -/
def c2Calls3 : List CallNode :=
  [⟨.ident "defineParagraph", [⟨.objLit [], 16, 18⟩]⟩]

/-- The §8 non-literal-argument example source. -/
def c6Src : String := "defineParagraph(someVariable)"

/-- The calls of `c6Src`: the argument is an identifier, bytes 16 to 28. -/
def c6Calls : List CallNode :=
  [⟨.ident "defineParagraph", [⟨.identE "someVariable", 16, 28⟩]⟩]

/-- A fixture with one rewritten call surrounded by other bytes. -/
def c8Src : String := "const a = defineParagraph(\x7b oneProp: 1 \x7d);"

/-- The calls of `c8Src`: one `defineParagraph` call, argument at bytes
26 to 40. -/
def c8Calls : List CallNode :=
  [⟨.ident "defineParagraph",
    [⟨.objLit [.property (.ident "oneProp") false (.lit (.num 1))], 26, 40⟩]⟩]

/-- The edits `collectEdits` produces for `c8Calls` (the reduced
definition of `\x7b oneProp: 1 \x7d` is the empty object). -/
def c8Edits : List Edit :=
  [⟨26, 40, "\x7b\x7d".data⟩]

/-- The transform's output for `c8Src`. -/
def c8Out : String := "const a = defineParagraph(\x7b\x7d);"

/-- A non-`.vue` fixture containing a rewritable `defineParagraph` call. -/
def c10Src : String := "defineParagraph(\x7b foo: 1 \x7d)"

/-- The calls of `c10Src`. -/
def c10Calls : List CallNode :=
  [⟨.ident "defineParagraph",
    [⟨.objLit [.property (.ident "foo") false (.lit (.num 1))], 16, 26⟩]⟩]

/-! Helper lemmas about `estreeToObject`. -/

theorem propEntry_eq_none_of_unsupportedValue (p : OProp)
    (h : unsupportedValue p = true) : propEntry p = none := by
  cases p with
  | spread e => rfl
  | property k c v =>
      cases v <;> cases k <;> first | rfl | simp [unsupportedValue] at h

theorem propEntries_filter_unsupported (props : List OProp) :
    propEntries (props.filter (fun p => !unsupportedValue p)) = propEntries props := by
  induction props with
  | nil => rfl
  | cons p ps ih =>
      by_cases h : unsupportedValue p = true
      · simp [List.filter_cons, h, propEntries,
          propEntry_eq_none_of_unsupportedValue p h, ih]
      · have h' : unsupportedValue p = false := by simpa using h
        simp [List.filter_cons, h', propEntries, ih]

/-- C7: for every object-literal property list, a property whose value is
an array literal or any non-literal sub-expression (identifier, call,
template string with interpolation), and any spread element, is silently
dropped by `estreeToObject`: removing exactly those elements from the
property list leaves the extracted mapping unchanged, and the conversion
of the remaining properties is total — it never raises an error. -/
theorem estreeToObject_drops_unsupported_values (props : List OProp) :
    estreeToObject props = estreeToObject (props.filter (fun p => !unsupportedValue p)) := by
  unfold estreeToObject
  rw [propEntries_filter_unsupported]

/-- C4 (counterexample): contrary to the claim, a property whose key is
the string literal `"a"` produces no entry at all, and a computed
property whose key expression is the identifier `k` is not skipped — it
produces an entry under `k`'s name. -/
theorem estreeToObject_key_handling_counterexample :
    estreeToObject [.property (.litKey (.str "a")) false (.lit (.num 1))] = []
    ∧ estreeToObject [.property (.ident "k") true (.lit (.num 2))] =
        [("k", DataValue.lit (.num 2))] :=
  ⟨rfl, rfl⟩

/-- C4 (amended): the extracted mapping contains an entry for each
property whose key node is an identifier — including computed keys whose
expression is an identifier, which are treated as if that identifier's
name were the key — with literal values mapped to themselves and nested
object-literal values converted recursively; properties with
string-literal (or any other literal) keys and all other computed keys
are skipped. -/
theorem estreeToObject_key_handling (n : String) (c : Bool) (lv kv : JSValue)
    (qs ps : List OProp) (w : Expr) :
    propEntries (.property (.ident n) c (.lit lv) :: ps) =
      (n, DataValue.lit lv) :: propEntries ps
    ∧ propEntries (.property (.ident n) c (.objLit qs) :: ps) =
        (n, DataValue.obj (estreeToObject qs)) :: propEntries ps
    ∧ propEntries (.property (.litKey kv) c w :: ps) = propEntries ps
    ∧ propEntries (.property .exprKey c w :: ps) = propEntries ps
    ∧ estreeToObject ps = fromEntries (propEntries ps) := by
  refine ⟨rfl, rfl, ?_, ?_, rfl⟩ <;> cases w <;> rfl

/-- C3: contrary to the claim, `buildRuntimeDefinition` tests the default
value with a JavaScript truthiness check, so option entries whose literal
default is falsy (`false`, `0`, `""`) are dropped from the reduced
runtime shape; only the truthy default survives. The runtime counterpart
`defineParagraph` (line 94-98) instead tests presence with `'default' in`
and keeps all four defaults. -/
theorem buildRuntimeDefinition_drops_falsy_defaults :
    (buildRuntimeDefinition [("options", DataValue.obj
        [("a", .obj [("default", .lit (.bool false))]),
         ("b", .obj [("default", .lit (.num 0))]),
         ("c", .obj [("default", .lit (.str ""))]),
         ("d", .obj [("default", .lit (.str "x"))])])]).options =
      some [("d", DataValue.obj [("default", .lit (.str "x"))])]
    ∧ localDefaultOptions (some
        [("a", DataValue.obj [("default", .lit (.bool false))]),
         ("b", .obj [("default", .lit (.num 0))]),
         ("c", .obj [("default", .lit (.str ""))]),
         ("d", .obj [("default", .lit (.str "x"))])]) =
      [("a", DataValue.lit (.bool false)), ("b", .lit (.num 0)),
       ("c", .lit (.str "")), ("d", .lit (.str "x"))] :=
  ⟨rfl, rfl⟩

/-- C1: the transform applied to the §8 example rewrites the argument to
`\x7b"options":\x7b"size":\x7b"default":"medium"\x7d\x7d\x7d` — the
`globalOptions` key is absent from the extracted definition (its value is
an `ArrayExpression`, which `estreeToObject` drops) and therefore from
the rewritten argument, contrary to the claimed
`\x7b options: ..., globalOptions: ["theme"] \x7d` shape. -/
theorem transform_drops_globalOptions_array :
    transform "Component.vue" c1Src c1Calls = .ok c1Out
    ∧ lookupEntry (estreeToObject c1Props) "globalOptions" = none
    ∧ hasSubstring c1Out.data "globalOptions".data = false :=
  ⟨rfl, rfl, by decide⟩

theorem propEntry_eq_none_of_no_nameKey (p : OProp) (h : hasNameKey p = false) :
    propEntry p = none := by
  cases p with
  | spread e => rfl
  | property k c v =>
      cases k with
      | ident n => simp [hasNameKey] at h
      | litKey kv => cases v <;> rfl
      | exprKey => cases v <;> rfl

/-- C2 (counterexample): the transform is not a no-op on its own output.
The once-transformed fixture `c2Out1` still parses as a `defineParagraph`
call with an object-literal argument (the JSON object), so the second run
extracts it — all its keys are string literals, so the extracted
definition is empty — and overwrites the argument with `\x7b\x7d`,
changing the file. -/
theorem transform_second_run_rewrites_argument :
    transform "Component.vue" c2Src c2Calls1 = .ok c2Out1
    ∧ transform "Component.vue" c2Out1 c2Calls2 = .ok c2Out2
    ∧ c2Out2 ≠ c2Out1 :=
  ⟨rfl, rfl, by decide⟩

/-- C2 (amended): re-running the transform on its own output does not
crash, but it is not a no-op: the serialized argument re-parses as an
`ObjectExpression` whose keys are all string literals, every such key is
skipped by the extraction (first conjunct), so the second run rewrites
the argument to `\x7b\x7d`; from the second run on the output is a fixed
point (third conjunct). -/
theorem transform_reapplication_fixpoint :
    (∀ props : List OProp, (∀ p ∈ props, hasNameKey p = false) →
        estreeToObject props = [])
    ∧ transform "Component.vue" c2Out1 c2Calls2 = .ok c2Out2
    ∧ transform "Component.vue" c2Out2 c2Calls3 = .ok c2Out2 := by
  refine ⟨?_, rfl, rfl⟩
  intro props h
  have hpe : propEntries props = [] := by
    induction props with
    | nil => rfl
    | cons p ps ih =>
        have hp := propEntry_eq_none_of_no_nameKey p (h p (List.mem_cons_self p ps))
        simp [propEntries, hp]
        exact ih (fun q hq => h q (List.mem_cons_of_mem p hq))
  unfold estreeToObject
  rw [hpe]
  rfl

/-- Witness for the amended C2 statement at a concrete string-keyed
property list. -/
theorem transform_reapplication_fixpoint_witness :
    estreeToObject [.property (.litKey (.str "options")) false (.lit .null)] = [] :=
  transform_reapplication_fixpoint.1 _ (by
    intro p hp
    simp only [List.mem_singleton] at hp
    subst hp
    rfl)

theorem lookupEntry_eq_none (l : List (String × DataValue)) (k : String)
    (h : ∀ p ∈ l, p.1 ≠ k) : lookupEntry l k = none := by
  induction l with
  | nil => rfl
  | cons q rest ih =>
      rcases q with ⟨k2, v⟩
      have hk2 : k2 ≠ k := h (k2, v) (List.mem_cons_self _ _)
      simp only [lookupEntry, if_neg hk2]
      exact ih (fun p hp => h p (List.mem_cons_of_mem _ hp))

/-- C5: the global-option default merge of `defineParagraph` looks
`globalOptionsDefaults` up under the keys that `for...in` enumerates from
the `config.globalOptions` array — the index strings `"0"`, `"1"`, ... —
so whenever no key of `globalOptionsDefaults` is such an index string
(in particular when it is keyed by option names), none of its configured
defaults is merged and the computed defaults are exactly the local ones. -/
theorem defineParagraph_globalDefaults_index_keyed
    (options : Option (List (String × DataValue)))
    (globalOptions : Option (List String))
    (globalOptionsDefaults : List (String × DataValue))
    (h : ∀ p ∈ globalOptionsDefaults,
        ∀ i : Nat, i < (globalOptions.getD []).length → p.1 ≠ toString i) :
    defineParagraphDefaultOptions options globalOptions globalOptionsDefaults =
      localDefaultOptions options := by
  unfold defineParagraphDefaultOptions globalMerged
  cases globalOptions with
  | none => rfl
  | some gs =>
      have key : ∀ (L : List Nat) (acc : List (String × DataValue)),
          (∀ i ∈ L, lookupEntry globalOptionsDefaults (toString i) = none) →
          L.foldl
            (fun acc i =>
              match lookupEntry globalOptionsDefaults (toString i) with
              | some v => insertEntry acc (toString i) v
              | none => acc)
            acc = acc := by
        intro L
        induction L with
        | nil => intro acc _; rfl
        | cons i L ih =>
            intro acc hL
            rw [List.foldl_cons]
            have h0 := hL i (List.mem_cons_self _ _)
            rw [h0]
            exact ih acc (fun j hj => hL j (List.mem_cons_of_mem _ hj))
      refine key _ _ ?_
      intro i hi
      rw [List.mem_range] at hi
      exact lookupEntry_eq_none _ _ (fun p hp => h p hp i (by simpa using hi))

/-- Witness for C5 at the configuration of §8's propagation example:
`globalOptionsDefaults` is keyed by the option name `"theme"`, so its
default never reaches the computed options. -/
theorem defineParagraph_globalDefaults_index_keyed_witness :
    defineParagraphDefaultOptions
      (some [("size", DataValue.obj [("default", DataValue.lit (.str "medium"))])])
      (some ["theme"])
      [("theme", DataValue.lit (.str "light"))] =
    localDefaultOptions
      (some [("size", DataValue.obj [("default", DataValue.lit (.str "medium"))])]) :=
  defineParagraph_globalDefaults_index_keyed _ _ _ (by
    intro p hp i hi
    simp only [List.mem_singleton] at hp
    subst hp
    simp only [Option.getD_some, List.length_cons, List.length_nil] at hi
    obtain rfl : i = 0 := Nat.lt_one_iff.mp hi
    decide)

theorem callEdit_eq_ok_none (c : CallNode)
    (h : c.callee = Callee.ident "defineParagraph" → firstArgNotObjLit c) :
    callEdit c = .ok none := by
  rcases c with ⟨callee, args⟩
  cases callee with
  | other => rfl
  | ident n =>
      by_cases hn : n = "defineParagraph"
      · subst hn
        have hf := h rfl
        cases args with
        | nil => simp [firstArgNotObjLit] at hf
        | cons a rest =>
            have hf' : isObjLit a.expr = false := hf
            rcases a with ⟨e, s, t⟩
            cases e <;> first | rfl | simp [isObjLit] at hf'
      · simp [callEdit, hn]

theorem collectEdits_eq_ok_nil (calls : List CallNode)
    (h : ∀ c ∈ calls, c.callee = Callee.ident "defineParagraph" → firstArgNotObjLit c) :
    collectEdits calls = .ok [] := by
  induction calls with
  | nil => rfl
  | cons c rest ih =>
      have hc := callEdit_eq_ok_none c (h c (List.mem_cons_self _ _))
      have hr := ih (fun d hd => h d (List.mem_cons_of_mem _ hd))
      simp [collectEdits, hc, hr]

/-- C6: when the source does not contain the marker name
`defineParagraph` at all, or when every `defineParagraph` call's first
argument is not an object-literal expression, nothing is rewritten and
the transform returns the source unmodified. -/
theorem transform_no_rewrite_unchanged (id source : String) (calls : List CallNode)
    (h : hasSubstring source.data "defineParagraph".data = false
        ∨ ∀ c ∈ calls, c.callee = Callee.ident "defineParagraph" → firstArgNotObjLit c) :
    transform id source calls = .ok source := by
  unfold transform
  by_cases hid : fileRegexTest id = false
  · rw [if_pos hid]
  · rw [if_neg hid]
    rcases h with h | h
    · rw [if_pos h]
    · by_cases hm : hasSubstring source.data "defineParagraph".data = false
      · rw [if_pos hm]
      · rw [if_neg hm, collectEdits_eq_ok_nil calls h]
        rfl

/-- Witness for C6 at the §8 non-literal example
`defineParagraph(someVariable)`. -/
theorem transform_no_rewrite_unchanged_witness :
    transform "Component.vue" c6Src c6Calls = .ok c6Src :=
  transform_no_rewrite_unchanged _ _ _ (Or.inr (by
    intro c hc _
    simp only [c6Calls, List.mem_singleton] at hc
    subst hc
    exact rfl))

/-- C10: for every file whose path does not end in `.vue` the transform
returns the source unmodified, whatever calls the file contains. -/
theorem transform_only_vue_files (id source : String) (calls : List CallNode)
    (h : fileRegexTest id = false) :
    transform id source calls = .ok source := by
  unfold transform
  rw [if_pos h]

/-- Witness for C10: a `.ts` file containing a rewritable
`defineParagraph` call with an object-literal argument is left unchanged. -/
theorem transform_only_vue_files_witness :
    transform "Component.ts" c10Src c10Calls = .ok c10Src :=
  transform_only_vue_files _ _ _ (by decide)


theorem editsWF_mem (l : List Edit) :
    ∀ (o len : Nat), editsWF o len l →
      ∀ e ∈ l, o ≤ e.start ∧ e.start ≤ e.stop ∧ e.stop ≤ len := by
  induction l with
  | nil => intro o len _ e he; simp at he
  | cons e0 rest ih =>
      intro o len hwf e he
      obtain ⟨h1, h2, h3, hwfr⟩ := hwf
      rcases List.mem_cons.mp he with rfl | he'
      · exact ⟨h1, h2, h3⟩
      · have := ih e0.stop len hwfr e he'
        exact ⟨by omega, this.2.1, this.2.2⟩

theorem editShift_eq_zero (l : List Edit) (p : Nat)
    (h : ∀ e ∈ l, ¬ e.stop ≤ p) : editShift l p = 0 := by
  induction l with
  | nil => rfl
  | cons e rest ih =>
      have h0 := h e (List.mem_cons_self _ _)
      simp only [editShift, if_neg h0, zero_add]
      exact ih (fun e' he' => h e' (List.mem_cons_of_mem _ he'))

theorem applyEditsFrom_outside (edits : List Edit) :
    ∀ (off : Nat) (cs : List Char) (p : Nat),
      editsWF off (off + cs.length) edits →
      off ≤ p → p < off + cs.length →
      (∀ e ∈ edits, p < e.start ∨ e.stop ≤ p) →
      ∃ j : Nat, (j : Int) = (p : Int) - (off : Int) + editShift edits p ∧
        (applyEditsFrom off cs edits)[j]? = cs[p - off]? := by
  induction edits with
  | nil =>
      intro off cs p _ hop hpc _
      refine ⟨p - off, ?_, rfl⟩
      simp only [editShift]
      omega
  | cons e rest ih =>
      intro off cs p hwf hop hpc hout
      obtain ⟨h1, h2, h3, hwfr⟩ := hwf
      rcases hout e (List.mem_cons_self _ _) with hlt | hge
      · have hrest0 : ∀ e' ∈ rest, ¬ e'.stop ≤ p := by
          intro e' he'
          have hb := editsWF_mem rest e.stop (off + cs.length) hwfr e' he'
          omega
        have hsh : editShift (e :: rest) p = 0 := by
          simp only [editShift, if_neg (by omega : ¬ e.stop ≤ p),
            editShift_eq_zero rest p hrest0, zero_add]
        refine ⟨p - off, by rw [hsh]; omega, ?_⟩
        show (cs.take (e.start - off) ++ e.repl ++
          applyEditsFrom e.stop (cs.drop (e.stop - off)) rest)[p - off]? = cs[p - off]?
        rw [List.append_assoc]
        rw [List.getElem?_append_left (by rw [List.length_take]; omega)]
        rw [List.getElem?_take, if_pos (by omega)]
      · have hlen' : (cs.drop (e.stop - off)).length = cs.length - (e.stop - off) :=
          List.length_drop _ _
        have hwfr' : editsWF e.stop (e.stop + (cs.drop (e.stop - off)).length) rest := by
          have heq : e.stop + (cs.drop (e.stop - off)).length = off + cs.length := by omega
          rw [heq]
          exact hwfr
        obtain ⟨j', hj', hg⟩ := ih e.stop (cs.drop (e.stop - off)) p hwfr' hge (by omega)
          (fun e' he' => hout e' (List.mem_cons_of_mem _ he'))
        have hA : (cs.take (e.start - off)).length = e.start - off := by
          rw [List.length_take]; omega
        refine ⟨(e.start - off) + e.repl.length + j', ?_, ?_⟩
        · have hsh : editShift (e :: rest) p =
              (e.repl.length : Int) - ((e.stop : Int) - (e.start : Int)) + editShift rest p := by
            simp only [editShift, if_pos hge]
          rw [hsh]
          omega
        · show (cs.take (e.start - off) ++ e.repl ++
            applyEditsFrom e.stop (cs.drop (e.stop - off)) rest)[
              (e.start - off) + e.repl.length + j']? = cs[p - off]?
          rw [List.getElem?_append_right (by rw [List.length_append, hA]; omega)]
          rw [List.length_append, hA]
          have hidx : e.start - off + e.repl.length + j' - (e.start - off + e.repl.length) = j' := by
            omega
          rw [hidx, hg, List.getElem?_drop]
          congr 1
          omega

/-- C8: frame property of the rewrite. When the transform rewrites a
file (the id matches, the marker occurs, and the walk collects the edit
list `edits`, well formed as a source-ordered parse yields it), every
byte at a position `p` outside all replaced argument ranges reappears
unchanged in the output, at `p` shifted by the accumulated length
difference of the replacements strictly before `p`; only the bytes
inside the ranges `[start, stop)` of the rewritten arguments change. -/
theorem transform_frame_outside_ranges (id source : String) (calls : List CallNode)
    (edits : List Edit) (out : String)
    (hid : fileRegexTest id = true)
    (hmark : hasSubstring source.data "defineParagraph".data = true)
    (hcol : collectEdits calls = .ok edits)
    (hwf : editsWF 0 source.data.length edits)
    (hout : transform id source calls = .ok out)
    (p : Nat) (hp : p < source.data.length)
    (houts : ∀ e ∈ edits, p < e.start ∨ e.stop ≤ p) :
    ∃ j : Nat, (j : Int) = (p : Int) + editShift edits p ∧
      out.data[j]? = source.data[p]? := by
  have hout' : out = String.mk (applyEditsFrom 0 source.data edits) := by
    unfold transform at hout
    rw [if_neg (by simp [hid]), if_neg (by simp [hmark]), hcol] at hout
    injection hout with h
    exact h.symm
  obtain ⟨j, hj, hg⟩ := applyEditsFrom_outside edits 0 source.data p
    (by simpa using hwf) (Nat.zero_le _) (by simpa using hp) houts
  refine ⟨j, by simpa using hj, ?_⟩
  rw [hout']
  simpa using hg

/-- Witness for C8 at the one-call fixture: byte 3 of `c8Src` (outside
the argument range 26-40) reappears in `c8Out`. -/
theorem transform_frame_outside_ranges_witness :
    ∃ j : Nat, (j : Int) = (3 : Int) + editShift c8Edits 3 ∧
      c8Out.data[j]? = c8Src.data[3]? :=
  transform_frame_outside_ranges "Component.vue" c8Src c8Calls c8Edits c8Out
    (by decide) (by decide) rfl
    ⟨by decide, by decide, by decide, trivial⟩
    rfl 3 (by decide)
    (by
      intro e he
      simp only [c8Edits, List.mem_singleton] at he
      subst he
      left
      decide)

theorem mem_dedupFirstGo (l : List String) :
    ∀ (seen : List String) (a : String),
      a ∈ dedupFirstGo seen l ↔ a ∈ l ∧ a ∉ seen := by
  induction l with
  | nil => intro seen a; simp [dedupFirstGo]
  | cons x xs ih =>
      intro seen a
      by_cases hx : x ∈ seen
      · rw [dedupFirstGo, if_pos hx, ih]
        constructor
        · rintro ⟨h1, h2⟩
          exact ⟨List.mem_cons_of_mem _ h1, h2⟩
        · rintro ⟨h1, h2⟩
          rcases List.mem_cons.mp h1 with rfl | h1
          · exact absurd hx h2
          · exact ⟨h1, h2⟩
      · rw [dedupFirstGo, if_neg hx]
        constructor
        · intro h
          rcases List.mem_cons.mp h with rfl | h
          · exact ⟨List.mem_cons_self _ _, hx⟩
          · obtain ⟨h1, h2⟩ := (ih _ _).mp h
            exact ⟨List.mem_cons_of_mem _ h1, fun hs => h2 (by simp [hs])⟩
        · rintro ⟨h1, h2⟩
          by_cases hax : a = x
          · exact hax ▸ List.mem_cons_self _ _
          · rcases List.mem_cons.mp h1 with rfl | h1
            · exact absurd rfl hax
            · exact List.mem_cons_of_mem _ ((ih _ _).mpr ⟨h1, by simp [hax, h2]⟩)

theorem nodup_dedupFirstGo (l : List String) :
    ∀ seen : List String, (dedupFirstGo seen l).Nodup := by
  induction l with
  | nil => intro seen; simp [dedupFirstGo]
  | cons x xs ih =>
      intro seen
      by_cases hx : x ∈ seen
      · simpa [dedupFirstGo, hx] using ih seen
      · simp only [dedupFirstGo, if_neg hx]
        refine List.nodup_cons.mpr ⟨?_, ih _⟩
        rw [mem_dedupFirstGo]
        rintro ⟨_, hnot⟩
        exact hnot (by simp)

theorem sublist_dedupFirstGo (l : List String) :
    ∀ seen : List String, (dedupFirstGo seen l).Sublist l := by
  induction l with
  | nil => intro seen; simp [dedupFirstGo]
  | cons x xs ih =>
      intro seen
      by_cases hx : x ∈ seen
      · simpa [dedupFirstGo, hx] using (ih seen).cons x
      · simp only [dedupFirstGo, if_neg hx]
        exact (ih _).cons₂ x

theorem effectiveSet_props (cfg : List String) (d : String) :
    d ∈ dedupFirst (if d ∈ cfg then cfg else cfg ++ [d])
    ∧ (dedupFirst (if d ∈ cfg then cfg else cfg ++ [d])).Nodup
    ∧ (dedupFirst (if d ∈ cfg then cfg else cfg ++ [d])).Sublist (cfg ++ [d])
    ∧ ∀ x, x ∈ dedupFirst (if d ∈ cfg then cfg else cfg ++ [d]) ↔ x ∈ cfg ∨ x = d := by
  unfold dedupFirst
  by_cases hd : d ∈ cfg
  · rw [if_pos hd]
    refine ⟨?_, nodup_dedupFirstGo _ _, (sublist_dedupFirstGo _ _).trans (List.sublist_append_left _ _), ?_⟩
    · rw [mem_dedupFirstGo]; exact ⟨hd, by simp⟩
    · intro x
      rw [mem_dedupFirstGo]
      simp only [List.not_mem_nil, not_false_iff, and_true]
      constructor
      · exact Or.inl
      · rintro (h | rfl)
        · exact h
        · exact hd
  · rw [if_neg hd]
    refine ⟨?_, nodup_dedupFirstGo _ _, sublist_dedupFirstGo _ _, ?_⟩
    · rw [mem_dedupFirstGo]; simp
    · intro x
      rw [mem_dedupFirstGo]
      simp [List.mem_append]

theorem foldl_chunkTemplates (l : List String) :
    ∀ acc : List String,
      l.foldl
        (fun acc n =>
          if n ≠ "global" then acc ++ ["paragraphs-builder/chunk-" ++ n ++ ".ts"] else acc)
        acc
      = acc ++ (l.filter (fun n => n ≠ "global")).map
          (fun n => "paragraphs-builder/chunk-" ++ n ++ ".ts") := by
  induction l with
  | nil => intro acc; simp
  | cons x xs ih =>
      intro acc
      rw [List.foldl_cons, List.filter_cons]
      by_cases hx : x = "global"
      · rw [if_neg (by simp [hx]), if_neg (by simp [hx])]
        exact ih acc
      · rw [if_pos hx, if_pos (by simpa using hx), ih, List.map_cons]
        simp [List.append_assoc]

/-- C9: the effective chunk-name set is the configured list with
`"global"` appended when absent, deduplicated keeping the first
occurrence of each name (so it contains `"global"`, has no duplicates,
is an order-preserving sublist of the configured list followed by
`"global"`, and its members are exactly the configured names plus
`"global"`); the effective field-list-type set behaves the same with
`"default"`; and a chunk-manifest template is emitted for exactly the
effective chunk names other than `"global"`, in order. -/
theorem chunkNames_fieldListTypes_effective_sets
    (chunkNames fieldListTypes : Option (List String)) :
    ("global" ∈ getChunkNames chunkNames
      ∧ (getChunkNames chunkNames).Nodup
      ∧ (getChunkNames chunkNames).Sublist (chunkNames.getD [] ++ ["global"])
      ∧ ∀ x, x ∈ getChunkNames chunkNames ↔ x ∈ chunkNames.getD [] ∨ x = "global")
    ∧ ("default" ∈ getFieldListTypes fieldListTypes
      ∧ (getFieldListTypes fieldListTypes).Nodup
      ∧ (getFieldListTypes fieldListTypes).Sublist (fieldListTypes.getD [] ++ ["default"])
      ∧ ∀ x, x ∈ getFieldListTypes fieldListTypes ↔ x ∈ fieldListTypes.getD [] ∨ x = "default")
    ∧ emittedChunkTemplates chunkNames =
        ((getChunkNames chunkNames).filter (fun n => n ≠ "global")).map
          (fun n => "paragraphs-builder/chunk-" ++ n ++ ".ts") := by
  refine ⟨effectiveSet_props _ _, effectiveSet_props _ _, ?_⟩
  unfold emittedChunkTemplates
  rw [foldl_chunkTemplates]
  simp
